import Mathlib

/-!
Verification of the platform-directory reconciliation engine in
`update_platform.py`.

The engine operates on the set of directories under `platforms/` (the
`install_path.glob("platforms/android-*")` listing).  We model the directory
tree as a `List DirEntry`: each entry has a `name` (the directory's base
name, e.g. `"android-21"`) and a `tag` (an abstract identity for the
directory's inode/contents — `rename` preserves it, `rmtree` destroys it).
Filesystem enumeration order is OS-dependent, so the listing order is part
of the model's input.  `Path.glob` is modelled as a snapshot of the matching
names taken before the mutation loop starts.

Python's `int(str)` parsing is modelled for ASCII strings: surrounding
whitespace is stripped, an optional single `+`/`-` sign is allowed, and the
digits may be separated by single underscores placed between digits.
(CPython additionally accepts non-ASCII decimal digits; directory names in
this repository are ASCII, so that is outside the model.)
-/

namespace UpdatePlatform

/-! ## Python `int` parsing model -/

/-- ASCII decimal digit test (`str.isdigit` on the characters `int` accepts). -/
def isDecDigit (c : Char) : Bool :=
  c = '0' || c = '1' || c = '2' || c = '3' || c = '4' ||
  c = '5' || c = '6' || c = '7' || c = '8' || c = '9'

/-- Numeric value of an ASCII decimal digit (unspecified `0` elsewhere,
matching its guarded uses). -/
def digitVal (c : Char) : Nat :=
  if c = '1' then 1 else if c = '2' then 2 else if c = '3' then 3
  else if c = '4' then 4 else if c = '5' then 5 else if c = '6' then 6
  else if c = '7' then 7 else if c = '8' then 8 else if c = '9' then 9
  else 0

/-- The whitespace characters `int()` strips from a candidate literal. -/
def pyWhitespace (c : Char) : Bool :=
  c = ' ' || c = '\t' || c = '\n' || c = '\x0d' || c = '\x0b' || c = '\x0c'

/-- Strip leading and trailing whitespace, as `int()` does. -/
def pyStrip (cs : List Char) : List Char :=
  ((cs.dropWhile pyWhitespace).reverse.dropWhile pyWhitespace).reverse

/-- Parse the remaining digits of a decimal literal: each further character
is a digit, or an underscore that must sit between two digits. -/
def pyDigitsAux (acc : Nat) : List Char → Option Nat
  | [] => some acc
  | c :: rest =>
    if isDecDigit c then pyDigitsAux (acc * 10 + digitVal c) rest
    else if c = '_' then
      match rest with
      | [] => none
      | c2 :: rest2 =>
        if isDecDigit c2 then pyDigitsAux (acc * 10 + digitVal c2) rest2
        else none
    else none

/-- Parse a nonempty unsigned decimal literal (with underscore grouping). -/
def pyDigits : List Char → Option Nat
  | [] => none
  | c :: rest => if isDecDigit c then pyDigitsAux (digitVal c) rest else none

/-- Python `int(s)` on a character list: strip whitespace, optional sign,
then a decimal literal.  `none` models `ValueError`. -/
def pyIntChars (cs : List Char) : Option Int :=
  match pyStrip cs with
  | '+' :: rest => (pyDigits rest).map (fun n => Int.ofNat n)
  | '-' :: rest => (pyDigits rest).map (fun n => -Int.ofNat n)
  | rest => (pyDigits rest).map (fun n => Int.ofNat n)

/-- Python `int(s)` on a string. -/
def pyInt (s : String) : Option Int :=
  pyIntChars s.data

/-! ## Python `str(int)` (decimal printing, used by `f"android-{new_name}"`) -/

/-- The ASCII character of a decimal digit. -/
def decChar (d : Nat) : Char :=
  if d = 1 then '1' else if d = 2 then '2' else if d = 3 then '3'
  else if d = 4 then '4' else if d = 5 then '5' else if d = 6 then '6'
  else if d = 7 then '7' else if d = 8 then '8' else if d = 9 then '9'
  else '0'

/-- Decimal digits of `n`, least significant first; `fuel`-structured so the
definition is kernel-reducible.  `fuel = n + 1` always suffices. -/
def natDigitsAux : Nat → Nat → List Char
  | 0, _ => []
  | fuel + 1, n =>
    if n < 10 then [decChar n]
    else decChar (n % 10) :: natDigitsAux fuel (n / 10)

/-- Decimal digits of `n`, most significant first. -/
def natDecChars (n : Nat) : List Char :=
  (natDigitsAux (n + 1) n).reverse

/-- Python `str` of an `int`. -/
def intDecStr (v : Int) : String :=
  if v < 0 then ⟨'-' :: natDecChars v.natAbs⟩ else ⟨natDecChars v.natAbs⟩

/-! ## Name splitting: `str.partition("-")` and `str.split("-", maxsplit=1)` -/

/-- Model of `s.partition("-")`: `(before, sep, after)` split at the first `'-'`;
`(s, "", "")` when there is no `'-'`. -/
def partitionDashList : List Char → List Char × List Char × List Char
  | [] => ([], [], [])
  | c :: rest =>
    if c = '-' then ([], ['-'], rest)
    else
      let r := partitionDashList rest
      (c :: r.1, r.2.1, r.2.2)

/-- The `version` the engine extracts: `dirname.partition("-")`'s third
component (empty when the name has no `'-'`). -/
def engineVersionOf (s : String) : String :=
  ⟨(partitionDashList s.data).2.2⟩

/-- Worker for `s.split("-", maxsplit=1)`. -/
def splitGo (acc : List Char) : List Char → List (List Char)
  | [] => [acc.reverse]
  | c :: rest =>
    if c = '-' then [acc.reverse, rest]
    else splitGo (c :: acc) rest

/-- Model of `s.split("-", maxsplit=1)`: one or two pieces. -/
def splitDash1List (cs : List Char) : List (List Char) :=
  splitGo [] cs

/-- The `version` the validator extracts via
`_, version = name.split("-", maxsplit=1)`; `none` models the `ValueError`
raised when the unpacking does not see exactly two pieces. -/
def validatorVersionOf (s : String) : Option String :=
  match splitDash1List s.data with
  | [_, v] => some ⟨v⟩
  | _ => none

/-! ## Directory-name classification -/

/-- Result of the `try: int(version) ... except ValueError:` classification. -/
inductive ParsedToken where
  | numeric (v : Int)
  | codename (c : String)
deriving DecidableEq, Repr

/-- Classify a token: numeric when `int()` succeeds, otherwise the token is a
codename.  Classification is total — the `ValueError` is always caught. -/
def classifyVersion (version : String) : ParsedToken :=
  match pyInt version with
  | some v => ParsedToken.numeric v
  | none => ParsedToken.codename version

/-! ## Data model -/

/-- The `PlatformsMetadata` value as the engine consumes it (the dataclass field
types): numeric range plus the codename alias table.  The Python `dict` is
modelled as an association list with unique keys looked up front-to-back. -/
structure PlatformsMetadata where
  minimum : Int
  maximum : Int
  aliases : List (String × Int)
deriving DecidableEq, Repr

/-- Model of `version in platforms.aliases` / `platforms.aliases[version]`. -/
def aliasLookup (al : List (String × Int)) (c : String) : Option Int :=
  (al.find? (fun pr => pr.1 == c)).map (fun pr => pr.2)

/-- One directory under `platforms/`: its base name plus an abstract
identity for its contents (preserved by `rename`, destroyed by `rmtree`). -/
structure DirEntry where
  name : String
  tag : Nat
deriving DecidableEq, Repr

/-- The names present in the directory (what `Path.exists` consults). -/
def dirNames (s : List DirEntry) : List String :=
  s.map DirEntry.name

/-- Whether `pat` is a prefix of `s` (character-list form of glob `android-*`). -/
def listStarts : List Char → List Char → Bool
  | [], _ => true
  | _ :: _, [] => false
  | p :: ps, c :: cs => p == c && listStarts ps cs

/-- Model of `install_path.glob("platforms/android-*")`: the names matching
`android-*`, as a snapshot in the (OS-given) listing order. -/
def globAndroid (s : List DirEntry) : List String :=
  (s.filter (fun d => listStarts "android-".data d.name.data)).map DirEntry.name

/-- Errors the reconciliation engine can raise.  `aliasCollision` is the
`RuntimeError` of `rename_platform` (the spec's `AliasCollisionError`);
`keyError` models `platforms.aliases[version]` on a missing key. -/
inductive RunError where
  | aliasCollision (version : String) (newName : Int)
  | keyError
deriving DecidableEq, Repr

/-- Model of `v in range(lo, hi)` for Python ints (step 1): `lo <= v < hi`. -/
def pyRangeHas (lo hi v : Int) : Bool :=
  decide (lo ≤ v) && decide (v < hi)

/-! ## Reconciliation engine -/

/-- Model of `remove_platform_if_out_of_range`: `rmtree` the directory unless
`version in range(minimum, maximum + 1)`. -/
def remove_platform_if_out_of_range (version : Int) (name : String)
    (s : List DirEntry) (p : PlatformsMetadata) : List DirEntry :=
  if pyRangeHas p.minimum (p.maximum + 1) version then s
  else s.filter (fun d => d.name != name)

/-- Model of `rename_platform`: look up the alias target, fail if a directory with
the target name already exists, otherwise rename. -/
def rename_platform (version : String) (name : String)
    (s : List DirEntry) (p : PlatformsMetadata) : List DirEntry × Option RunError :=
  match aliasLookup p.aliases version with
  | none => (s, some RunError.keyError)
  | some newName =>
    let newNamePath := "android-" ++ intDecStr newName
    if newNamePath ∈ dirNames s then
      (s, some (RunError.aliasCollision version newName))
    else
      (s.map (fun d => if d.name = name then { name := newNamePath, tag := d.tag } else d),
       none)

/-- Model of `remove_or_rename_codename_if_unknown`: `rmtree` unknown codenames,
rename known ones. -/
def remove_or_rename_codename_if_unknown (version : String) (name : String)
    (s : List DirEntry) (p : PlatformsMetadata) : List DirEntry × Option RunError :=
  if (aliasLookup p.aliases version).isNone then
    (s.filter (fun d => d.name != name), none)
  else
    rename_platform version name s p

/-- Model of `remove_or_rename_platform_directory`: split the name at the first `-`,
try `int`; numeric tokens go through the range check, the rest through the
codename path. -/
def remove_or_rename_platform_directory (name : String)
    (s : List DirEntry) (p : PlatformsMetadata) : List DirEntry × Option RunError :=
  match classifyVersion (engineVersionOf name) with
  | ParsedToken.numeric v => (remove_platform_if_out_of_range v name s p, none)
  | ParsedToken.codename c => remove_or_rename_codename_if_unknown c name s p

/-- The `for path in glob(...)` loop: process each snapshot name in order;
an exception aborts the loop, leaving the state as it was. -/
def reconcileList : List String → List DirEntry → PlatformsMetadata →
    List DirEntry × Option RunError
  | [], s, _ => (s, none)
  | n :: rest, s, p =>
    match remove_or_rename_platform_directory n s p with
    | (s', none) => reconcileList rest s' p
    | (s', some e) => (s', some e)

/-- Model of `remove_and_rename_platforms_to_match_metadata`. -/
def remove_and_rename_platforms_to_match_metadata
    (s : List DirEntry) (p : PlatformsMetadata) : List DirEntry × Option RunError :=
  reconcileList (globAndroid s) s p

/-! ## Post-reconciliation validator -/

/-- Validator failures: `valueError` models the uncaught unpacking error of
`_, version = name.split(...)`; `unresolvedCodenames` is the `sys.exit`
carrying every offending path (the spec's `UnresolvedCodenameError`). -/
inductive VerifyError where
  | valueError
  | unresolvedCodenames (paths : List String)
deriving DecidableEq, Repr

/-- The validator's collection loop over the glob snapshot: gather every
name whose token fails `int` parsing. -/
def codenameScan : List String → Option (List String)
  | [] => some []
  | n :: rest =>
    match splitDash1List n.data with
    | [_, version] =>
      match pyIntChars version with
      | some _ => codenameScan rest
      | none => (codenameScan rest).map (fun cs => n :: cs)
    | _ => none

/-- Model of `verify_no_codenames`: re-scan the tree; `sys.exit` listing every
codenamed release if any is found.  The function mutates nothing, so the
tree is returned unchanged. -/
def verify_no_codenames (s : List DirEntry) : List DirEntry × Option VerifyError :=
  match codenameScan (globAndroid s) with
  | none => (s, some VerifyError.valueError)
  | some [] => (s, none)
  | some cs => (s, some (VerifyError.unresolvedCodenames cs))

/-! ## Metadata loading -/

/-- Parsed JSON values (`json.load` output).  JSON numbers are modelled as
integers, which covers every shape the loader claims are at issue. -/
inductive JValue where
  | jnull
  | jbool (b : Bool)
  | jnum (n : Int)
  | jstr (s : String)
  | jarr (xs : List JValue)
  | jobj (fields : List (String × JValue))

/-- Loader failures: unparseable source, missing key, or subscripting a
non-object. -/
inductive LoadError where
  | jsonDecodeError
  | keyError (k : String)
  | typeError
deriving DecidableEq, Repr

/-- Model of `data[k]` on a JSON value. -/
def jGet (v : JValue) (k : String) : Except LoadError JValue :=
  match v with
  | JValue.jobj fields =>
    match fields.find? (fun pr => pr.1 == k) with
    | some pr => Except.ok pr.2
    | none => Except.error (LoadError.keyError k)
  | _ => Except.error LoadError.typeError

/-- What `PlatformsMetadata.load_from_file` actually produces: the dataclass
constructor performs no runtime type checking, so each field holds whatever
JSON value was stored under its key. -/
structure RawPlatformsMetadata where
  minimum : JValue
  maximum : JValue
  aliases : JValue

/-- Model of `PlatformsMetadata.load_from_file`: `json.load` (a `none` source models
an unreadable/unparseable file), then the three subscript accesses in
evaluation order. -/
def load_from_file (src : Option JValue) : Except LoadError RawPlatformsMetadata :=
  match src with
  | none => Except.error LoadError.jsonDecodeError
  | some data =>
    match jGet data "min" with
    | Except.error e => Except.error e
    | Except.ok mn =>
      match jGet data "max" with
      | Except.error e => Except.error e
      | Except.ok mx =>
        match jGet data "aliases" with
        | Except.error e => Except.error e
        | Except.ok al => Except.ok ⟨mn, mx, al⟩

/-- Is a JSON value integer-shaped (what the spec demands of `min`/`max`)? -/
def isIntShape : JValue → Bool
  | JValue.jnum _ => true
  | _ => false

/-! ## The §4.3 decision table as a per-entry function

`dispose` is the spec's decision table read off the source's per-entry
branches; the characterization theorem below proves the operational loop
realizes it on successful runs. -/

/-- Per-entry disposition: `none` = removed, `some d'` = the entry's final
form (kept, or renamed to its alias target).  Names not matching the glob
are untouched. -/
def dispose (p : PlatformsMetadata) (d : DirEntry) : Option DirEntry :=
  if listStarts "android-".data d.name.data then
    match classifyVersion (engineVersionOf d.name) with
    | ParsedToken.numeric v =>
      if pyRangeHas p.minimum (p.maximum + 1) v then some d else none
    | ParsedToken.codename c =>
      match aliasLookup p.aliases c with
      | none => none
      | some k => some { name := "android-" ++ intDecStr k, tag := d.tag }
  else some d

/-- During the loop, entries whose names are still pending are untouched;
processed entries already show their final disposition. -/
def pendingDispose (p : PlatformsMetadata) (l : List String) (d : DirEntry) : Option DirEntry :=
  if d.name ∈ l then some d else dispose p d

/-! ## Parsing lemmas -/

theorem isDecDigit_cases {c : Char} (h : isDecDigit c = true) :
    c = '0' ∨ c = '1' ∨ c = '2' ∨ c = '3' ∨ c = '4' ∨
    c = '5' ∨ c = '6' ∨ c = '7' ∨ c = '8' ∨ c = '9' := by
  have h' := h
  simp only [isDecDigit, Bool.or_eq_true, decide_eq_true_eq] at h'
  tauto

theorem decDigit_not_whitespace {c : Char} (h : isDecDigit c = true) :
    pyWhitespace c = false := by
  rcases isDecDigit_cases h with h|h|h|h|h|h|h|h|h|h <;> subst h <;> decide

theorem decDigit_ne_plus {c : Char} (h : isDecDigit c = true) : c ≠ '+' := by
  rcases isDecDigit_cases h with h|h|h|h|h|h|h|h|h|h <;> subst h <;> decide

theorem decDigit_ne_minus {c : Char} (h : isDecDigit c = true) : c ≠ '-' := by
  rcases isDecDigit_cases h with h|h|h|h|h|h|h|h|h|h <;> subst h <;> decide

theorem isDecDigit_decChar {d : Nat} (h : d < 10) : isDecDigit (decChar d) = true := by
  interval_cases d <;> decide

theorem digitVal_decChar {d : Nat} (h : d < 10) : digitVal (decChar d) = d := by
  interval_cases d <;> decide

theorem dropWhile_all_false {p : Char → Bool} :
    ∀ cs : List Char, (∀ c ∈ cs, p c = false) → cs.dropWhile p = cs := by
  intro cs h
  cases cs with
  | nil => rfl
  | cons c rest =>
    rw [List.dropWhile_cons]
    simp [h c (List.mem_cons_self c rest)]

theorem pyStrip_of_no_whitespace {cs : List Char}
    (h : ∀ c ∈ cs, pyWhitespace c = false) : pyStrip cs = cs := by
  unfold pyStrip
  rw [dropWhile_all_false cs h, dropWhile_all_false cs.reverse, List.reverse_reverse]
  intro c hc
  exact h c (List.mem_reverse.mp hc)

theorem pyDigitsAux_all_digits :
    ∀ (cs : List Char) (acc : Nat), (∀ c ∈ cs, isDecDigit c = true) →
      pyDigitsAux acc cs = some (cs.foldl (fun a c => a * 10 + digitVal c) acc) := by
  intro cs
  induction cs with
  | nil => intro acc _; rfl
  | cons c rest ih =>
    intro acc h
    have hc := h c (List.mem_cons_self c rest)
    unfold pyDigitsAux
    simp only [hc, if_true]
    rw [ih _ (fun x hx => h x (List.mem_cons_of_mem c hx))]
    simp [List.foldl_cons]

theorem pyDigits_all_digits {cs : List Char} (hne : cs ≠ [])
    (h : ∀ c ∈ cs, isDecDigit c = true) :
    pyDigits cs = some (cs.foldl (fun a c => a * 10 + digitVal c) 0) := by
  cases cs with
  | nil => exact absurd rfl hne
  | cons c rest =>
    have hc := h c (List.mem_cons_self c rest)
    simp only [pyDigits, hc, if_true]
    rw [pyDigitsAux_all_digits rest _ (fun x hx => h x (List.mem_cons_of_mem c hx))]
    simp [List.foldl_cons]

theorem natDigitsAux_all_digits :
    ∀ (fuel n : Nat), n < fuel → ∀ c ∈ natDigitsAux fuel n, isDecDigit c = true := by
  intro fuel
  induction fuel with
  | zero => intro n h; omega
  | succ f ih =>
    intro n hn c hc
    rw [natDigitsAux] at hc
    by_cases h10 : n < 10
    · rw [if_pos h10] at hc
      simp only [List.mem_singleton] at hc
      subst hc; exact isDecDigit_decChar h10
    · rw [if_neg h10] at hc
      rcases List.mem_cons.mp hc with hc | hc
      · subst hc; exact isDecDigit_decChar (Nat.mod_lt n (by omega))
      · exact ih (n / 10) (by omega) c hc

theorem natDigitsAux_ne_nil {fuel n : Nat} (h : n < fuel) : natDigitsAux fuel n ≠ [] := by
  cases fuel with
  | zero => omega
  | succ f =>
    rw [natDigitsAux]
    by_cases h10 : n < 10
    · rw [if_pos h10]; simp
    · rw [if_neg h10]; simp

theorem natDigitsAux_foldl :
    ∀ (fuel n : Nat), n < fuel → ∀ acc : Nat,
      (natDigitsAux fuel n).reverse.foldl (fun a c => a * 10 + digitVal c) acc =
        acc * 10 ^ (natDigitsAux fuel n).length + n := by
  intro fuel
  induction fuel with
  | zero => intro n h; omega
  | succ f ih =>
    intro n hn acc
    rw [natDigitsAux]
    by_cases h10 : n < 10
    · rw [if_pos h10]
      simp [digitVal_decChar h10]
    · rw [if_neg h10]
      rw [List.reverse_cons, List.foldl_append]
      rw [ih (n / 10) (by omega) acc]
      simp only [List.foldl_cons, List.foldl_nil, List.length_cons]
      rw [digitVal_decChar (Nat.mod_lt n (by omega))]
      rw [pow_succ]
      have h1 : 10 * (n / 10) + n % 10 = n := Nat.div_add_mod n 10
      ring_nf
      omega

theorem natDecChars_all_digits (n : Nat) : ∀ c ∈ natDecChars n, isDecDigit c = true := by
  intro c hc
  exact natDigitsAux_all_digits (n + 1) n (Nat.lt_succ_self n) c (List.mem_reverse.mp hc)

theorem natDecChars_ne_nil (n : Nat) : natDecChars n ≠ [] := by
  unfold natDecChars
  simpa using natDigitsAux_ne_nil (Nat.lt_succ_self n)

theorem natDecChars_foldl (n : Nat) :
    (natDecChars n).foldl (fun a c => a * 10 + digitVal c) 0 = n := by
  unfold natDecChars
  rw [natDigitsAux_foldl (n + 1) n (Nat.lt_succ_self n) 0]
  simp

theorem pyDigits_natDecChars (n : Nat) : pyDigits (natDecChars n) = some n := by
  rw [pyDigits_all_digits (natDecChars_ne_nil n) (natDecChars_all_digits n)]
  rw [natDecChars_foldl]

theorem pyIntChars_digits_cons {c : Char} {rest : List Char}
    (h : ∀ x ∈ c :: rest, isDecDigit x = true) :
    pyIntChars (c :: rest) = (pyDigits (c :: rest)).map (fun n => Int.ofNat n) := by
  have hc := h c (List.mem_cons_self c rest)
  have hstrip : pyStrip (c :: rest) = c :: rest :=
    pyStrip_of_no_whitespace (fun x hx => decDigit_not_whitespace (h x hx))
  rcases isDecDigit_cases hc with h0|h0|h0|h0|h0|h0|h0|h0|h0|h0 <;>
    (subst h0; rw [pyIntChars, hstrip]) <;> rfl

/-- Round trip: Python `int(str(v))` recovers `v`; in particular every
rename-target token parses as numeric. -/
theorem pyInt_intDecStr (v : Int) : pyInt (intDecStr v) = some v := by
  by_cases hv : v < 0
  · have hne : natDecChars v.natAbs ≠ [] := natDecChars_ne_nil _
    rw [pyInt, intDecStr, if_pos hv]
    show pyIntChars ('-' :: natDecChars v.natAbs) = some v
    have hstrip : pyStrip ('-' :: natDecChars v.natAbs) = '-' :: natDecChars v.natAbs := by
      apply pyStrip_of_no_whitespace
      intro x hx
      rcases List.mem_cons.mp hx with hx | hx
      · subst hx; decide
      · exact decDigit_not_whitespace (natDecChars_all_digits _ x hx)
    rw [pyIntChars, hstrip]
    show (pyDigits (natDecChars v.natAbs)).map (fun n => -Int.ofNat n) = some v
    rw [pyDigits_natDecChars]
    simp only [Option.map_some']
    congr 1
    rw [Int.ofNat_eq_natCast]
    omega
  · rw [pyInt, intDecStr, if_neg hv]
    show pyIntChars (natDecChars v.natAbs) = some v
    obtain ⟨c, rest, hcr⟩ : ∃ c rest, natDecChars v.natAbs = c :: rest := by
      cases h : natDecChars v.natAbs with
      | nil => exact absurd h (natDecChars_ne_nil _)
      | cons c rest => exact ⟨c, rest, rfl⟩
    rw [hcr]
    rw [pyIntChars_digits_cons (by rw [← hcr]; exact natDecChars_all_digits _)]
    rw [← hcr, pyDigits_natDecChars]
    simp only [Option.map_some']
    congr 1
    rw [Int.ofNat_eq_natCast]
    omega

/-! ## Name-splitting lemmas -/

/-- The engine's token of `"android-" ++ c` is `c` itself. -/
theorem engineVersionOf_android (c : String) :
    engineVersionOf ("android-" ++ c) = c := rfl

/-- Any name `"android-" ++ c` matches the glob. -/
theorem listStarts_android (c : String) :
    listStarts "android-".data ("android-" ++ c).data = true := by
  cases c; rfl

theorem listStarts_exists_rest :
    ∀ (ps cs : List Char), listStarts ps cs = true → ∃ rest, cs = ps ++ rest := by
  intro ps
  induction ps with
  | nil => intro cs _; exact ⟨cs, rfl⟩
  | cons p ps ih =>
    intro cs h
    cases cs with
    | nil => simp [listStarts] at h
    | cons c cs' =>
      rw [listStarts, Bool.and_eq_true] at h
      obtain ⟨rest, hrest⟩ := ih cs' h.2
      exact ⟨rest, by simp [beq_iff_eq.mp h.1, hrest]⟩

/-- A glob-matching name is `"android-" ++ token` for its engine token. -/
theorem android_name_decompose {s : String}
    (h : listStarts "android-".data s.data = true) :
    s = "android-" ++ engineVersionOf s := by
  obtain ⟨rest, hrest⟩ := listStarts_exists_rest _ _ h
  have hs : s = ⟨"android-".data ++ rest⟩ := by
    cases s; simp at hrest; simp [hrest]
  subst hs
  rfl

theorem splitGo_no_dash :
    ∀ (cs acc : List Char), '-' ∉ cs → splitGo acc cs = [acc.reverse ++ cs] := by
  intro cs
  induction cs with
  | nil => intro acc _; rw [splitGo]; simp
  | cons c rest ih =>
    intro acc h
    have hc : ¬c = '-' := fun hc => h (hc ▸ List.mem_cons_self c rest)
    rw [splitGo, if_neg hc, ih (c :: acc) (fun hm => h (List.mem_cons_of_mem c hm))]
    simp

theorem splitGo_dash :
    ∀ (cs acc : List Char), '-' ∈ cs →
      splitGo acc cs =
        [acc.reverse ++ (partitionDashList cs).1, (partitionDashList cs).2.2] := by
  intro cs
  induction cs with
  | nil => intro acc h; simp at h
  | cons c rest ih =>
    intro acc h
    by_cases hc : c = '-'
    · subst hc
      rw [splitGo, if_pos rfl, partitionDashList, if_pos rfl]
      simp
    · have hrest : '-' ∈ rest := by
        rcases List.mem_cons.mp h with h | h
        · exact absurd h.symm hc
        · exact h
      rw [splitGo, if_neg hc, ih (c :: acc) hrest, partitionDashList, if_neg hc]
      simp

/-- On any name containing a separator, the validator's `split("-", 1)`
extracts exactly the token the engine's `partition("-")` extracts. -/
theorem validatorVersion_eq_engineVersion {s : String} (h : '-' ∈ s.data) :
    validatorVersionOf s = some (engineVersionOf s) := by
  rw [validatorVersionOf, splitDash1List, splitGo_dash s.data [] h]
  rfl

/-- Glob-matching names contain a separator. -/
theorem dash_mem_of_android {s : String}
    (h : listStarts "android-".data s.data = true) : '-' ∈ s.data := by
  obtain ⟨rest, hrest⟩ := listStarts_exists_rest _ _ h
  rw [hrest]
  exact List.mem_append_left _ (by decide)

/-! ## List helpers -/

theorem mem_dirNames {x : String} {s : List DirEntry} :
    x ∈ dirNames s ↔ ∃ d ∈ s, d.name = x := by
  simp [dirNames]

theorem filterMap_id_of_all_some {α : Type} (f : α → Option α) :
    ∀ l : List α, (∀ a ∈ l, f a = some a) → l.filterMap f = l := by
  intro l
  induction l with
  | nil => intro _; rfl
  | cons a rest ih =>
    intro h
    rw [List.filterMap_cons, h a (List.mem_cons_self a rest),
      ih (fun x hx => h x (List.mem_cons_of_mem a hx))]

theorem filterMap_congr_mem {α β : Type} {f g : α → Option β} :
    ∀ l : List α, (∀ a ∈ l, f a = g a) → l.filterMap f = l.filterMap g := by
  intro l
  induction l with
  | nil => intro _; rfl
  | cons a rest ih =>
    intro h
    rw [List.filterMap_cons, List.filterMap_cons, h a (List.mem_cons_self a rest),
      ih (fun x hx => h x (List.mem_cons_of_mem a hx))]

theorem filterMap_then_filter {α β : Type} (f : α → Option β) (q : β → Bool) :
    ∀ l : List α,
      (l.filterMap f).filter q =
        l.filterMap (fun a =>
          match f a with
          | none => none
          | some b => if q b then some b else none) := by
  intro l
  induction l with
  | nil => rfl
  | cons a rest ih =>
    rw [List.filterMap_cons, List.filterMap_cons]
    cases hfa : f a with
    | none => simpa using ih
    | some b =>
      by_cases hq : q b = true
      · rw [List.filter_cons_of_pos hq, ih]
        simp [hq]
      · rw [List.filter_cons_of_neg (by simpa using hq), ih]
        simp [hq]

theorem filterMap_then_map {α β γ : Type} (f : α → Option β) (g : β → γ) :
    ∀ l : List α, (l.filterMap f).map g = l.filterMap (fun a => (f a).map g) := by
  intro l
  induction l with
  | nil => rfl
  | cons a rest ih =>
    rw [List.filterMap_cons, List.filterMap_cons]
    cases hfa : f a with
    | none => simpa using ih
    | some b => simp [ih]

theorem map_rename_nodup {t n : String} :
    ∀ l : List String, l.Nodup → t ∉ l →
      (l.map (fun x => if x = n then t else x)).Nodup := by
  intro l
  induction l with
  | nil => intro _ _; exact List.nodup_nil
  | cons x rest ih =>
    intro hnd ht
    rw [List.map_cons, List.nodup_cons]
    rw [List.nodup_cons] at hnd
    refine ⟨?_, ih hnd.2 (fun hm => ht (List.mem_cons_of_mem x hm))⟩
    intro hmem
    obtain ⟨y, hy, hgy⟩ := List.mem_map.mp hmem
    by_cases hx : x = n
    · rw [if_pos hx] at hgy
      by_cases hyn : y = n
      · exact hnd.1 (by rw [hx, ← hyn]; exact hy)
      · rw [if_neg hyn] at hgy
        exact ht (hgy ▸ List.mem_cons_of_mem x hy)
    · rw [if_neg hx] at hgy
      by_cases hyn : y = n
      · rw [if_pos hyn] at hgy
        exact ht (hgy ▸ List.mem_cons_self x rest)
      · rw [if_neg hyn] at hgy
        exact hnd.1 (hgy ▸ hy)

/-! ## Engine step lemmas -/

theorem step_of_numeric {n : String} {v : Int} (s : List DirEntry) (p : PlatformsMetadata)
    (h : pyInt (engineVersionOf n) = some v) :
    remove_or_rename_platform_directory n s p =
      (remove_platform_if_out_of_range v n s p, none) := by
  unfold remove_or_rename_platform_directory classifyVersion
  rw [h]

theorem step_of_codename_unknown {n : String} (s : List DirEntry) (p : PlatformsMetadata)
    (h : pyInt (engineVersionOf n) = none)
    (ha : aliasLookup p.aliases (engineVersionOf n) = none) :
    remove_or_rename_platform_directory n s p =
      (s.filter (fun d => d.name != n), none) := by
  unfold remove_or_rename_platform_directory classifyVersion
  rw [h]
  show remove_or_rename_codename_if_unknown (engineVersionOf n) n s p = _
  unfold remove_or_rename_codename_if_unknown
  rw [ha]
  rfl

theorem step_of_codename_collision {n : String} {k : Int} (s : List DirEntry)
    (p : PlatformsMetadata)
    (h : pyInt (engineVersionOf n) = none)
    (ha : aliasLookup p.aliases (engineVersionOf n) = some k)
    (hc : ("android-" ++ intDecStr k) ∈ dirNames s) :
    remove_or_rename_platform_directory n s p =
      (s, some (RunError.aliasCollision (engineVersionOf n) k)) := by
  unfold remove_or_rename_platform_directory classifyVersion
  rw [h]
  show remove_or_rename_codename_if_unknown (engineVersionOf n) n s p = _
  unfold remove_or_rename_codename_if_unknown
  rw [ha]
  show rename_platform (engineVersionOf n) n s p = _
  unfold rename_platform
  rw [ha]
  simp only [if_pos hc]

theorem step_of_codename_rename {n : String} {k : Int} (s : List DirEntry)
    (p : PlatformsMetadata)
    (h : pyInt (engineVersionOf n) = none)
    (ha : aliasLookup p.aliases (engineVersionOf n) = some k)
    (hc : ("android-" ++ intDecStr k) ∉ dirNames s) :
    remove_or_rename_platform_directory n s p =
      (s.map (fun d =>
        if d.name = n then { name := "android-" ++ intDecStr k, tag := d.tag } else d),
       none) := by
  unfold remove_or_rename_platform_directory classifyVersion
  rw [h]
  show remove_or_rename_codename_if_unknown (engineVersionOf n) n s p = _
  unfold remove_or_rename_codename_if_unknown
  rw [ha]
  show rename_platform (engineVersionOf n) n s p = _
  unfold rename_platform
  rw [ha]
  simp only [if_neg hc]

/-- A step on name `n` never removes or renames an entry with a different
name (whatever the outcome). -/
theorem step_mem_of_ne {d : DirEntry} {n : String} {s s' : List DirEntry}
    {p : PlatformsMetadata} {e : Option RunError}
    (h : remove_or_rename_platform_directory n s p = (s', e))
    (hd : d ∈ s) (hne : d.name ≠ n) : d ∈ s' := by
  rcases hpi : pyInt (engineVersionOf n) with _ | v
  · rcases hal : aliasLookup p.aliases (engineVersionOf n) with _ | k
    · rw [step_of_codename_unknown s p hpi hal] at h
      obtain ⟨rfl, rfl⟩ := Prod.mk.injEq .. ▸ h
      exact List.mem_filter.mpr ⟨hd, by simpa using hne⟩
    · by_cases hmem : ("android-" ++ intDecStr k) ∈ dirNames s
      · rw [step_of_codename_collision s p hpi hal hmem] at h
        obtain ⟨rfl, rfl⟩ := Prod.mk.injEq .. ▸ h
        exact hd
      · rw [step_of_codename_rename s p hpi hal hmem] at h
        obtain ⟨rfl, rfl⟩ := Prod.mk.injEq .. ▸ h
        refine List.mem_map.mpr ⟨d, hd, ?_⟩
        rw [if_neg hne]
  · rw [step_of_numeric s p hpi] at h
    obtain ⟨rfl, rfl⟩ := Prod.mk.injEq .. ▸ h
    unfold remove_platform_if_out_of_range
    by_cases hr : pyRangeHas p.minimum (p.maximum + 1) v = true
    · rw [if_pos hr]; exact hd
    · rw [if_neg hr]
      exact List.mem_filter.mpr ⟨hd, by simpa using hne⟩

/-- A failing step leaves the state untouched. -/
theorem step_error_state {n : String} {s s' : List DirEntry} {p : PlatformsMetadata}
    {e : RunError}
    (h : remove_or_rename_platform_directory n s p = (s', some e)) : s' = s := by
  rcases hpi : pyInt (engineVersionOf n) with _ | v
  · rcases hal : aliasLookup p.aliases (engineVersionOf n) with _ | k
    · rw [step_of_codename_unknown s p hpi hal] at h
      exact absurd (congrArg Prod.snd h) (by simp)
    · by_cases hmem : ("android-" ++ intDecStr k) ∈ dirNames s
      · rw [step_of_codename_collision s p hpi hal hmem] at h
        exact (congrArg Prod.fst h).symm
      · rw [step_of_codename_rename s p hpi hal hmem] at h
        exact absurd (congrArg Prod.snd h) (by simp)
  · rw [step_of_numeric s p hpi] at h
    exact absurd (congrArg Prod.snd h) (by simp)

/-- A step preserves distinctness of the directory names. -/
theorem step_names_nodup {n : String} {s s' : List DirEntry} {p : PlatformsMetadata}
    {e : Option RunError}
    (h : remove_or_rename_platform_directory n s p = (s', e))
    (hs : (dirNames s).Nodup) : (dirNames s').Nodup := by
  have hfilter : ∀ q : DirEntry → Bool, (dirNames (s.filter q)).Nodup := by
    intro q
    exact hs.sublist (List.Sublist.map DirEntry.name (List.filter_sublist s))
  rcases hpi : pyInt (engineVersionOf n) with _ | v
  · rcases hal : aliasLookup p.aliases (engineVersionOf n) with _ | k
    · rw [step_of_codename_unknown s p hpi hal] at h
      obtain ⟨rfl, rfl⟩ := Prod.mk.injEq .. ▸ h
      exact hfilter _
    · by_cases hmem : ("android-" ++ intDecStr k) ∈ dirNames s
      · rw [step_of_codename_collision s p hpi hal hmem] at h
        obtain ⟨rfl, rfl⟩ := Prod.mk.injEq .. ▸ h
        exact hs
      · rw [step_of_codename_rename s p hpi hal hmem] at h
        obtain ⟨rfl, rfl⟩ := Prod.mk.injEq .. ▸ h
        have hnames : dirNames (s.map (fun d =>
            if d.name = n then { name := "android-" ++ intDecStr k, tag := d.tag } else d)) =
            (dirNames s).map (fun x => if x = n then "android-" ++ intDecStr k else x) := by
          unfold dirNames
          rw [List.map_map, List.map_map]
          apply List.map_congr_left
          intro d _
          by_cases hdn : d.name = n
          · simp [Function.comp, hdn]
          · simp [Function.comp, hdn]
        rw [hnames]
        exact map_rename_nodup (dirNames s) hs hmem
  · rw [step_of_numeric s p hpi] at h
    obtain ⟨rfl, rfl⟩ := Prod.mk.injEq .. ▸ h
    unfold remove_platform_if_out_of_range
    by_cases hr : pyRangeHas p.minimum (p.maximum + 1) v = true
    · rw [if_pos hr]; exact hs
    · rw [if_neg hr]; exact hfilter _

/-! ## Dispose lemmas -/

theorem dispose_nonglob {p : PlatformsMetadata} {d : DirEntry}
    (h : listStarts "android-".data d.name.data = false) : dispose p d = some d := by
  unfold dispose
  rw [h]
  rfl

theorem dispose_numeric {p : PlatformsMetadata} {d : DirEntry} {v : Int}
    (hg : listStarts "android-".data d.name.data = true)
    (hv : pyInt (engineVersionOf d.name) = some v) :
    dispose p d = if pyRangeHas p.minimum (p.maximum + 1) v then some d else none := by
  simp [dispose, classifyVersion, hg, hv]

theorem dispose_codename_unknown {p : PlatformsMetadata} {d : DirEntry}
    (hg : listStarts "android-".data d.name.data = true)
    (hv : pyInt (engineVersionOf d.name) = none)
    (ha : aliasLookup p.aliases (engineVersionOf d.name) = none) :
    dispose p d = none := by
  simp [dispose, classifyVersion, hg, hv, ha]

theorem dispose_codename_known {p : PlatformsMetadata} {d : DirEntry} {k : Int}
    (hg : listStarts "android-".data d.name.data = true)
    (hv : pyInt (engineVersionOf d.name) = none)
    (ha : aliasLookup p.aliases (engineVersionOf d.name) = some k) :
    dispose p d = some { name := "android-" ++ intDecStr k, tag := d.tag } := by
  simp [dispose, classifyVersion, hg, hv, ha]

/-- Whatever `dispose` keeps has the tag of its source entry. -/
theorem dispose_tag {p : PlatformsMetadata} {d d' : DirEntry}
    (h : dispose p d = some d') : d'.tag = d.tag := by
  by_cases hg : listStarts "android-".data d.name.data = true
  · cases hpi : pyInt (engineVersionOf d.name) with
    | some v =>
      rw [dispose_numeric hg hpi] at h
      by_cases hr : pyRangeHas p.minimum (p.maximum + 1) v = true
      · rw [if_pos hr] at h; cases h; rfl
      · rw [if_neg hr] at h; cases h
    | none =>
      cases ha : aliasLookup p.aliases (engineVersionOf d.name) with
      | none => rw [dispose_codename_unknown hg hpi ha] at h; cases h
      | some k => rw [dispose_codename_known hg hpi ha] at h; cases h; rfl
  · rw [dispose_nonglob (eq_false_of_ne_true hg)] at h; cases h; rfl

/-! ## Loop lemmas -/

/-- A failing run splits into a successfully processed front, the failing
entry, and an untouched tail; the reported state is the state reached just
before the failing entry, which the failing step did not change. -/
theorem reconcile_error_split (p : PlatformsMetadata) :
    ∀ (l : List String) (s out : List DirEntry) (e : RunError),
      reconcileList l s p = (out, some e) →
      ∃ l₁ n l₂, l = l₁ ++ n :: l₂ ∧ reconcileList l₁ s p = (out, none) ∧
        remove_or_rename_platform_directory n out p = (out, some e) := by
  intro l
  induction l with
  | nil =>
    intro s out e h
    exact absurd (congrArg Prod.snd h) (by simp [reconcileList])
  | cons n rest ih =>
    intro s out e h
    rw [reconcileList] at h
    rcases hstep : remove_or_rename_platform_directory n s p with ⟨s1, e1⟩
    rw [hstep] at h
    cases e1 with
    | none =>
      obtain ⟨l1, m, l2, hsplit, hok, herr⟩ := ih s1 out e h
      refine ⟨n :: l1, m, l2, by rw [hsplit]; rfl, ?_, herr⟩
      rw [reconcileList, hstep]
      exact hok
    | some e1 =>
      have h' : (s1, some e1) = (out, some e) := h
      injection h' with h1 h2
      injection h2 with h2
      subst h2
      subst h1
      have hst : s1 = s := step_error_state hstep
      subst hst
      exact ⟨[], n, rest, rfl, rfl, hstep⟩

/-- Any run (failing or not) preserves distinctness of names. -/
theorem reconcile_names_nodup (p : PlatformsMetadata) :
    ∀ (l : List String) (s out : List DirEntry) (e : Option RunError),
      reconcileList l s p = (out, e) → (dirNames s).Nodup → (dirNames out).Nodup := by
  intro l
  induction l with
  | nil =>
    intro s out e h hs
    obtain ⟨rfl, rfl⟩ := Prod.mk.injEq .. ▸ h
    exact hs
  | cons n rest ih =>
    intro s out e h hs
    rw [reconcileList] at h
    rcases hstep : remove_or_rename_platform_directory n s p with ⟨s1, e1⟩
    rw [hstep] at h
    have hs1 := step_names_nodup hstep hs
    cases e1 with
    | none => exact ih s1 out e h hs1
    | some e1 =>
      obtain ⟨rfl, rfl⟩ := Prod.mk.injEq .. ▸ h
      exact hs1

/-- Entries whose names never occur in the work list survive any run. -/
theorem reconcile_mem_of_not_in (p : PlatformsMetadata) :
    ∀ (l : List String) (s out : List DirEntry) (e : Option RunError) (d : DirEntry),
      reconcileList l s p = (out, e) → d ∈ s → d.name ∉ l → d ∈ out := by
  intro l
  induction l with
  | nil =>
    intro s out e d h hd _
    obtain ⟨rfl, rfl⟩ := Prod.mk.injEq .. ▸ h
    exact hd
  | cons n rest ih =>
    intro s out e d h hd hnl
    rw [reconcileList] at h
    rcases hstep : remove_or_rename_platform_directory n s p with ⟨s1, e1⟩
    rw [hstep] at h
    have hne : d.name ≠ n := fun hx => hnl (hx ▸ List.mem_cons_self n rest)
    have hd1 : d ∈ s1 := step_mem_of_ne hstep hd hne
    cases e1 with
    | none => exact ih s1 out e d h hd1 (fun hm => hnl (List.mem_cons_of_mem n hm))
    | some e1 =>
      obtain ⟨rfl, rfl⟩ := Prod.mk.injEq .. ▸ h
      exact hd1

/-- A work list consisting only of in-range numeric names leaves the state
untouched. -/
theorem reconcile_keep (p : PlatformsMetadata) :
    ∀ (l : List String) (s : List DirEntry),
      (∀ n ∈ l, ∃ v, pyInt (engineVersionOf n) = some v ∧
        pyRangeHas p.minimum (p.maximum + 1) v = true) →
      reconcileList l s p = (s, none) := by
  intro l
  induction l with
  | nil => intro s _; rfl
  | cons n rest ih =>
    intro s h
    obtain ⟨v, hv, hr⟩ := h n (List.mem_cons_self n rest)
    rw [reconcileList, step_of_numeric s p hv]
    unfold remove_platform_if_out_of_range
    rw [if_pos hr]
    exact ih s (fun m hm => h m (List.mem_cons_of_mem n hm))

/-! ## The run/decision-table correspondence -/

theorem reconcile_loop_filterMap (p : PlatformsMetadata) :
    ∀ (l : List String) (dirs out : List DirEntry),
      l.Nodup →
      (∀ n ∈ l, listStarts "android-".data n.data = true) →
      (∀ n ∈ l, ∃ d ∈ dirs, d.name = n) →
      (∀ d ∈ dirs, d.name ∉ l → ∀ d', dispose p d = some d' → d'.name ∉ l) →
      reconcileList l (dirs.filterMap (pendingDispose p l)) p = (out, none) →
      out = dirs.filterMap (dispose p) := by
  intro l
  induction l with
  | nil =>
    intro dirs out _ _ _ _ h
    have h' : (dirs.filterMap (pendingDispose p []), (none : Option RunError)) = (out, none) := h
    injection h' with h1 h2
    rw [← h1]
    apply filterMap_congr_mem
    intro d _
    unfold pendingDispose
    rw [if_neg (List.not_mem_nil d.name)]
  | cons n rest ih =>
    intro dirs out hnd hglob hex hB h
    set s := dirs.filterMap (pendingDispose p (n :: rest)) with hs
    have hgn : listStarts "android-".data n.data = true := hglob n (List.mem_cons_self n rest)
    have hnrest : n ∉ rest := (List.nodup_cons.mp hnd).1
    have hndrest : rest.Nodup := (List.nodup_cons.mp hnd).2
    have hglob' : ∀ m ∈ rest, listStarts "android-".data m.data = true :=
      fun m hm => hglob m (List.mem_cons_of_mem n hm)
    have hex' : ∀ m ∈ rest, ∃ d ∈ dirs, d.name = m :=
      fun m hm => hex m (List.mem_cons_of_mem n hm)
    have hsub : ∀ m ∈ rest, m ∈ dirNames s := by
      intro m hm
      obtain ⟨dm, hdm, hdmn⟩ := hex m (List.mem_cons_of_mem n hm)
      refine mem_dirNames.mpr ⟨dm, ?_, hdmn⟩
      refine List.mem_filterMap.mpr ⟨dm, hdm, ?_⟩
      unfold pendingDispose
      rw [if_pos (by rw [hdmn]; exact List.mem_cons_of_mem n hm)]
    rw [reconcileList] at h
    cases hpi : pyInt (engineVersionOf n) with
    | some v =>
      rw [step_of_numeric s p hpi] at h
      have h2 : reconcileList rest (remove_platform_if_out_of_range v n s p) p =
          (out, none) := h
      unfold remove_platform_if_out_of_range at h2
      by_cases hr : pyRangeHas p.minimum (p.maximum + 1) v = true
      · rw [if_pos hr] at h2
        have hBrest : ∀ d ∈ dirs, d.name ∉ rest → ∀ d', dispose p d = some d' →
            d'.name ∉ rest := by
          intro d hd hdnr d' hdisp
          by_cases hdn : d.name = n
          · have hdd : dispose p d = some d := by
              rw [dispose_numeric (by rw [hdn]; exact hgn) (by rw [hdn]; exact hpi),
                if_pos hr]
            rw [hdd] at hdisp
            cases hdisp
            rw [hdn]
            exact hnrest
          · have : d.name ∉ n :: rest := by simp [hdn, hdnr]
            exact fun hm => hB d hd this d' hdisp (List.mem_cons_of_mem n hm)
        have hstate : s = dirs.filterMap (pendingDispose p rest) := by
          rw [hs]
          apply filterMap_congr_mem
          intro d hd
          unfold pendingDispose
          by_cases hdn : d.name = n
          · rw [if_pos (by rw [hdn]; exact List.mem_cons_self n rest),
              if_neg (by rw [hdn]; exact hnrest)]
            rw [dispose_numeric (by rw [hdn]; exact hgn) (by rw [hdn]; exact hpi),
              if_pos hr]
          · by_cases hdr : d.name ∈ rest
            · rw [if_pos (List.mem_cons_of_mem n hdr), if_pos hdr]
            · rw [if_neg (by simp [hdn, hdr]), if_neg hdr]
        rw [hstate] at h2
        exact ih dirs out hndrest hglob' hex' hBrest h2
      · rw [if_neg hr] at h2
        have hBrest : ∀ d ∈ dirs, d.name ∉ rest → ∀ d', dispose p d = some d' →
            d'.name ∉ rest := by
          intro d hd hdnr d' hdisp
          by_cases hdn : d.name = n
          · have hdd : dispose p d = none := by
              rw [dispose_numeric (by rw [hdn]; exact hgn) (by rw [hdn]; exact hpi),
                if_neg hr]
            rw [hdd] at hdisp
            cases hdisp
          · have : d.name ∉ n :: rest := by simp [hdn, hdnr]
            exact fun hm => hB d hd this d' hdisp (List.mem_cons_of_mem n hm)
        have hstate : s.filter (fun d => d.name != n) =
            dirs.filterMap (pendingDispose p rest) := by
          rw [hs, filterMap_then_filter]
          apply filterMap_congr_mem
          intro d hd
          by_cases hdn : d.name = n
          · have h1 : pendingDispose p (n :: rest) d = some d := by
              unfold pendingDispose
              rw [if_pos (by rw [hdn]; exact List.mem_cons_self n rest)]
            have h3 : dispose p d = none := by
              rw [dispose_numeric (by rw [hdn]; exact hgn) (by rw [hdn]; exact hpi),
                if_neg hr]
            have h2 : pendingDispose p rest d = none := by
              unfold pendingDispose
              rw [if_neg (by rw [hdn]; exact hnrest), h3]
            rw [h1, h2]
            simp [hdn]
          · by_cases hdr : d.name ∈ rest
            · have h1 : pendingDispose p (n :: rest) d = some d := by
                unfold pendingDispose
                rw [if_pos (List.mem_cons_of_mem n hdr)]
              have h2 : pendingDispose p rest d = some d := by
                unfold pendingDispose
                rw [if_pos hdr]
              rw [h1, h2]
              simp [hdn]
            · have h1 : pendingDispose p (n :: rest) d = dispose p d := by
                unfold pendingDispose
                rw [if_neg (by simp [hdn, hdr])]
              have h2 : pendingDispose p rest d = dispose p d := by
                unfold pendingDispose
                rw [if_neg hdr]
              rw [h1, h2]
              cases hdisp : dispose p d with
              | none => simp
              | some d' =>
                have hd'n : d'.name ≠ n := by
                  have hnot := hB d hd (by simp [hdn, hdr]) d' hdisp
                  exact fun hx => hnot (by rw [hx]; exact List.mem_cons_self n rest)
                simp [hd'n]
        rw [hstate] at h2
        exact ih dirs out hndrest hglob' hex' hBrest h2
    | none =>
      cases hal : aliasLookup p.aliases (engineVersionOf n) with
      | none =>
        rw [step_of_codename_unknown s p hpi hal] at h
        have h2 : reconcileList rest (s.filter (fun d => d.name != n)) p = (out, none) := h
        have hBrest : ∀ d ∈ dirs, d.name ∉ rest → ∀ d', dispose p d = some d' →
            d'.name ∉ rest := by
          intro d hd hdnr d' hdisp
          by_cases hdn : d.name = n
          · have hdd : dispose p d = none :=
              dispose_codename_unknown (by rw [hdn]; exact hgn)
                (by rw [hdn]; exact hpi) (by rw [hdn]; exact hal)
            rw [hdd] at hdisp
            cases hdisp
          · have : d.name ∉ n :: rest := by simp [hdn, hdnr]
            exact fun hm => hB d hd this d' hdisp (List.mem_cons_of_mem n hm)
        have hstate : s.filter (fun d => d.name != n) =
            dirs.filterMap (pendingDispose p rest) := by
          rw [hs, filterMap_then_filter]
          apply filterMap_congr_mem
          intro d hd
          by_cases hdn : d.name = n
          · have h1 : pendingDispose p (n :: rest) d = some d := by
              unfold pendingDispose
              rw [if_pos (by rw [hdn]; exact List.mem_cons_self n rest)]
            have h3 : dispose p d = none :=
              dispose_codename_unknown (by rw [hdn]; exact hgn)
                (by rw [hdn]; exact hpi) (by rw [hdn]; exact hal)
            have h2 : pendingDispose p rest d = none := by
              unfold pendingDispose
              rw [if_neg (by rw [hdn]; exact hnrest), h3]
            rw [h1, h2]
            simp [hdn]
          · by_cases hdr : d.name ∈ rest
            · have h1 : pendingDispose p (n :: rest) d = some d := by
                unfold pendingDispose
                rw [if_pos (List.mem_cons_of_mem n hdr)]
              have h2 : pendingDispose p rest d = some d := by
                unfold pendingDispose
                rw [if_pos hdr]
              rw [h1, h2]
              simp [hdn]
            · have h1 : pendingDispose p (n :: rest) d = dispose p d := by
                unfold pendingDispose
                rw [if_neg (by simp [hdn, hdr])]
              have h2 : pendingDispose p rest d = dispose p d := by
                unfold pendingDispose
                rw [if_neg hdr]
              rw [h1, h2]
              cases hdisp : dispose p d with
              | none => simp
              | some d' =>
                have hd'n : d'.name ≠ n := by
                  have hnot := hB d hd (by simp [hdn, hdr]) d' hdisp
                  exact fun hx => hnot (by rw [hx]; exact List.mem_cons_self n rest)
                simp [hd'n]
        rw [hstate] at h2
        exact ih dirs out hndrest hglob' hex' hBrest h2
      | some k =>
        by_cases hmem : ("android-" ++ intDecStr k) ∈ dirNames s
        · rw [step_of_codename_collision s p hpi hal hmem] at h
          have h2 : (s, some (RunError.aliasCollision (engineVersionOf n) k)) =
              (out, (none : Option RunError)) := h
          injection h2 with h3 h4
          exact absurd h4 (by simp)
        · rw [step_of_codename_rename s p hpi hal hmem] at h
          have h2 : reconcileList rest (s.map (fun d =>
              if d.name = n then
                { name := "android-" ++ intDecStr k, tag := d.tag } else d)) p =
              (out, none) := h
          have hBrest : ∀ d ∈ dirs, d.name ∉ rest → ∀ d', dispose p d = some d' →
              d'.name ∉ rest := by
            intro d hd hdnr d' hdisp
            by_cases hdn : d.name = n
            · have hdd : dispose p d =
                  some { name := "android-" ++ intDecStr k, tag := d.tag } :=
                dispose_codename_known (by rw [hdn]; exact hgn)
                  (by rw [hdn]; exact hpi) (by rw [hdn]; exact hal)
              rw [hdd] at hdisp
              cases hdisp
              intro hmem'
              exact hmem (hsub _ hmem')
            · have : d.name ∉ n :: rest := by simp [hdn, hdnr]
              exact fun hm => hB d hd this d' hdisp (List.mem_cons_of_mem n hm)
          have hstate : s.map (fun d =>
              if d.name = n then
                { name := "android-" ++ intDecStr k, tag := d.tag } else d) =
              dirs.filterMap (pendingDispose p rest) := by
            rw [hs, filterMap_then_map]
            apply filterMap_congr_mem
            intro d hd
            by_cases hdn : d.name = n
            · have h1 : pendingDispose p (n :: rest) d = some d := by
                unfold pendingDispose
                rw [if_pos (by rw [hdn]; exact List.mem_cons_self n rest)]
              have h3 : dispose p d =
                  some { name := "android-" ++ intDecStr k, tag := d.tag } :=
                dispose_codename_known (by rw [hdn]; exact hgn)
                  (by rw [hdn]; exact hpi) (by rw [hdn]; exact hal)
              have h2 : pendingDispose p rest d =
                  some { name := "android-" ++ intDecStr k, tag := d.tag } := by
                unfold pendingDispose
                rw [if_neg (by rw [hdn]; exact hnrest), h3]
              rw [h1, h2]
              simp [hdn]
            · by_cases hdr : d.name ∈ rest
              · have h1 : pendingDispose p (n :: rest) d = some d := by
                  unfold pendingDispose
                  rw [if_pos (List.mem_cons_of_mem n hdr)]
                have h2 : pendingDispose p rest d = some d := by
                  unfold pendingDispose
                  rw [if_pos hdr]
                rw [h1, h2]
                simp [hdn]
              · have h1 : pendingDispose p (n :: rest) d = dispose p d := by
                  unfold pendingDispose
                  rw [if_neg (by simp [hdn, hdr])]
                have h2 : pendingDispose p rest d = dispose p d := by
                  unfold pendingDispose
                  rw [if_neg hdr]
                rw [h1, h2]
                cases hdisp : dispose p d with
                | none => simp
                | some d' =>
                  have hd'n : d'.name ≠ n := by
                    have hnot := hB d hd (by simp [hdn, hdr]) d' hdisp
                    exact fun hx => hnot (by rw [hx]; exact List.mem_cons_self n rest)
                  simp [hd'n]
          rw [hstate] at h2
          exact ih dirs out hndrest hglob' hex' hBrest h2

theorem globAndroid_nodup {dirs : List DirEntry} (hn : (dirNames dirs).Nodup) :
    (globAndroid dirs).Nodup :=
  hn.sublist (List.Sublist.map DirEntry.name (List.filter_sublist dirs))

theorem mem_globAndroid {n : String} {dirs : List DirEntry} :
    n ∈ globAndroid dirs ↔
      ∃ d ∈ dirs, d.name = n ∧ listStarts "android-".data n.data = true := by
  unfold globAndroid
  simp only [List.mem_map, List.mem_filter]
  constructor
  · rintro ⟨d, ⟨hd, hq⟩, rfl⟩
    exact ⟨d, hd, rfl, hq⟩
  · rintro ⟨d, hd, rfl, hq⟩
    exact ⟨d, ⟨hd, hq⟩, rfl⟩

/-- A successful reconciliation run computes exactly the §4.3 decision table,
entry by entry, over the input listing. -/
theorem engine_ok_filterMap {p : PlatformsMetadata} {dirs out : List DirEntry}
    (hn : (dirNames dirs).Nodup)
    (h : remove_and_rename_platforms_to_match_metadata dirs p = (out, none)) :
    out = dirs.filterMap (dispose p) := by
  have hinit : dirs.filterMap (pendingDispose p (globAndroid dirs)) = dirs := by
    apply filterMap_id_of_all_some
    intro d hd
    unfold pendingDispose
    by_cases hdg : d.name ∈ globAndroid dirs
    · rw [if_pos hdg]
    · rw [if_neg hdg]
      apply dispose_nonglob
      by_contra hx
      exact hdg (mem_globAndroid.mpr ⟨d, hd, rfl,
        (Bool.not_eq_false _).mp hx⟩)
  apply reconcile_loop_filterMap p (globAndroid dirs) dirs out
    (globAndroid_nodup hn)
  · intro m hm
    obtain ⟨d, _, _, hq⟩ := mem_globAndroid.mp hm
    exact hq
  · intro m hm
    obtain ⟨d, hd, hdn, _⟩ := mem_globAndroid.mp hm
    exact ⟨d, hd, hdn⟩
  · intro d hd hdg d' hdisp
    have hng : listStarts "android-".data d.name.data = false := by
      by_contra hx
      exact hdg (mem_globAndroid.mpr ⟨d, hd, rfl, (Bool.not_eq_false _).mp hx⟩)
    rw [dispose_nonglob hng] at hdisp
    cases hdisp
    exact hdg
  · rw [hinit]
    exact h

/-! ## Validator lemmas -/

theorem codenameScan_of_dashed :
    ∀ l : List String, (∀ n ∈ l, '-' ∈ n.data) →
      codenameScan l = some (l.filter (fun n => (pyInt (engineVersionOf n)).isNone)) := by
  intro l
  induction l with
  | nil => intro _; rfl
  | cons n rest ih =>
    intro h
    have hdash := h n (List.mem_cons_self n rest)
    have hsplit : splitDash1List n.data =
        [(partitionDashList n.data).1, (partitionDashList n.data).2.2] := by
      rw [splitDash1List, splitGo_dash n.data [] hdash]
      simp
    unfold codenameScan
    rw [hsplit]
    have hpth : pyIntChars (partitionDashList n.data).2.2 = pyInt (engineVersionOf n) := rfl
    show (match pyIntChars (partitionDashList n.data).2.2 with
      | some _ => codenameScan rest
      | none => (codenameScan rest).map (fun cs => n :: cs)) = _
    rw [hpth]
    cases hpi : pyInt (engineVersionOf n) with
    | some v =>
      rw [ih (fun m hm => h m (List.mem_cons_of_mem n hm))]
      rw [List.filter_cons_of_neg (by simp [hpi])]
    | none =>
      rw [ih (fun m hm => h m (List.mem_cons_of_mem n hm))]
      rw [List.filter_cons_of_pos (by simp [hpi])]
      rfl

theorem globAndroid_all_dashed (s : List DirEntry) :
    ∀ n ∈ globAndroid s, '-' ∈ n.data := by
  intro n hn
  obtain ⟨d, _, _, hq⟩ := mem_globAndroid.mp hn
  exact dash_mem_of_android hq

/-- Exact behaviour of the validator: never an unpack error, failure exactly
when some glob entry has an unparseable token, carrying exactly those
names. -/
theorem verify_no_codenames_eq (s : List DirEntry) :
    verify_no_codenames s =
      (s, if ((globAndroid s).filter
            (fun n => (pyInt (engineVersionOf n)).isNone)) = []
          then none
          else some (VerifyError.unresolvedCodenames
            ((globAndroid s).filter
              (fun n => (pyInt (engineVersionOf n)).isNone)))) := by
  unfold verify_no_codenames
  rw [codenameScan_of_dashed (globAndroid s) (globAndroid_all_dashed s)]
  cases hf : (globAndroid s).filter (fun n => (pyInt (engineVersionOf n)).isNone) with
  | nil => rfl
  | cons a l => rfl

/-! ## Claims -/

/-- C4, counterexample: the spec says tokens with leading zeros or a leading
sign are classified as codenames; Python's `int` parses them, so the code
classifies them as numeric releases. -/
theorem claim_C4_counterexample :
    classifyVersion "007" = ParsedToken.numeric 7 ∧
    classifyVersion "+5" = ParsedToken.numeric 5 ∧
    classifyVersion "-5" = ParsedToken.numeric (-5) := by
  decide

/-- C4, amended: classification is total (the `ValueError` is always caught)
and every token that Python `int` parsing rejects — not merely every
non-canonical-looking one — is classified as a codename string; tokens that
`int` accepts (including ones with leading zeros or a sign) are numeric. -/
theorem claim_C4_amended_classification (version : String) :
    (∃ v, pyInt version = some v ∧ classifyVersion version = ParsedToken.numeric v) ∨
    (pyInt version = none ∧ classifyVersion version = ParsedToken.codename version) := by
  cases hv : pyInt version with
  | some v =>
    refine Or.inl ⟨v, rfl, ?_⟩
    unfold classifyVersion
    rw [hv]
  | none =>
    refine Or.inr ⟨rfl, ?_⟩
    unfold classifyVersion
    rw [hv]

/-- C4, witness: a plain codename is classified as a codename. -/
theorem claim_C4_witness :
    classifyVersion "Weird" = ParsedToken.codename "Weird" := by
  rcases claim_C4_amended_classification "Weird" with ⟨v, hv, _⟩ | ⟨_, hcl⟩
  · have hnone : pyInt "Weird" = none := by decide
    rw [hnone] at hv
    cases hv
  · exact hcl

/-- C10: on every name containing a separator, the engine's
`partition("-")` token and the validator's `split("-", maxsplit=1)` token
coincide, so the two classifications agree. -/
theorem claim_C10_token_agreement (name : String) (h : '-' ∈ name.data) :
    validatorVersionOf name = some (engineVersionOf name) ∧
    ∀ t, validatorVersionOf name = some t →
      classifyVersion t = classifyVersion (engineVersionOf name) := by
  refine ⟨validatorVersion_eq_engineVersion h, ?_⟩
  intro t ht
  rw [validatorVersion_eq_engineVersion h] at ht
  injection ht with ht
  rw [ht]

/-- C10, witness: token agreement at `android-Tiramisu`. -/
theorem claim_C10_witness :
    validatorVersionOf "android-Tiramisu" = some (engineVersionOf "android-Tiramisu") :=
  (claim_C10_token_agreement "android-Tiramisu" (by decide)).1

/-- C3: the validator mutates nothing, never hits the unpacking error on a
glob-matching tree, fails exactly when some scanned entry's token fails
`int` parsing, and the failure lists exactly the offending names. -/
theorem claim_C3_validator_totality (s : List DirEntry) :
    ((verify_no_codenames s).1 = s) ∧
    ((verify_no_codenames s).2 ≠ some VerifyError.valueError) ∧
    ((verify_no_codenames s).2 = none ↔
      ∀ n ∈ globAndroid s, pyInt (engineVersionOf n) ≠ none) ∧
    (∀ paths, (verify_no_codenames s).2 = some (VerifyError.unresolvedCodenames paths) →
      ∀ n, (n ∈ paths ↔ n ∈ globAndroid s ∧ pyInt (engineVersionOf n) = none)) := by
  rw [verify_no_codenames_eq]
  by_cases hF : (globAndroid s).filter (fun n => (pyInt (engineVersionOf n)).isNone) = []
  · rw [if_pos hF]
    refine ⟨rfl, by simp, ?_, ?_⟩
    · simp only [true_iff]
      intro n hn hnone
      have : n ∈ (globAndroid s).filter (fun n => (pyInt (engineVersionOf n)).isNone) :=
        List.mem_filter.mpr ⟨hn, by simp [hnone]⟩
      rw [hF] at this
      cases this
    · intro paths hp
      exact absurd hp (by simp)
  · rw [if_neg hF]
    refine ⟨rfl, by simp, ?_, ?_⟩
    · refine ⟨fun hx => absurd hx (by simp), fun hall => absurd ?_ hF⟩
      rw [List.filter_eq_nil_iff]
      intro n hn
      simp [hall n hn]
    · intro paths hp
      have hpaths : paths =
          (globAndroid s).filter (fun n => (pyInt (engineVersionOf n)).isNone) := by
        injection hp with hp
        injection hp with hp
        exact hp.symm
      subst hpaths
      intro n
      rw [List.mem_filter]
      simp [Option.isNone_iff_eq_none]

/-- C3, witness: on an all-numeric tree the validator returns the tree
unchanged and raises nothing. -/
theorem claim_C3_witness :
    (verify_no_codenames [(⟨"android-21", 0⟩ : DirEntry)]).1 =
      [(⟨"android-21", 0⟩ : DirEntry)] ∧
    (verify_no_codenames [(⟨"android-21", 0⟩ : DirEntry)]).2 = none := by
  have happ := claim_C3_validator_totality [⟨"android-21", 0⟩]
  exact ⟨happ.1, happ.2.2.1.mpr (by decide)⟩

/-- C1: on a successful run over a tree with distinct names and distinct
identities, a glob-matched entry whose token parses as the integer `v`
survives unchanged exactly when `minimum <= v <= maximum`; otherwise it is
removed. -/
theorem claim_C1_range_law (p : PlatformsMetadata) (dirs out : List DirEntry)
    (hn : (dirNames dirs).Nodup) (ht : (dirs.map DirEntry.tag).Nodup)
    (h : remove_and_rename_platforms_to_match_metadata dirs p = (out, none))
    (d : DirEntry) (hd : d ∈ dirs)
    (hg : listStarts "android-".data d.name.data = true)
    (v : Int) (hv : pyInt (engineVersionOf d.name) = some v) :
    d ∈ out ↔ (p.minimum ≤ v ∧ v ≤ p.maximum) := by
  have hout := engine_ok_filterMap hn h
  subst hout
  constructor
  · intro hmem
    obtain ⟨d0, hd0, hdisp⟩ := List.mem_filterMap.mp hmem
    have htag : d0.tag = d.tag := (dispose_tag hdisp).symm
    have hdd : d0 = d := List.inj_on_of_nodup_map ht hd0 hd htag
    subst hdd
    rw [dispose_numeric hg hv] at hdisp
    by_cases hr : pyRangeHas p.minimum (p.maximum + 1) v = true
    · unfold pyRangeHas at hr
      simp only [Bool.and_eq_true, decide_eq_true_eq] at hr
      exact ⟨hr.1, by omega⟩
    · rw [if_neg hr] at hdisp
      cases hdisp
  · intro hrange
    have hr : pyRangeHas p.minimum (p.maximum + 1) v = true := by
      unfold pyRangeHas
      simp only [Bool.and_eq_true, decide_eq_true_eq]
      omega
    refine List.mem_filterMap.mpr ⟨d, hd, ?_⟩
    rw [dispose_numeric hg hv, if_pos hr]

/-- C1, witness: `android-30` survives under range 21..33. -/
theorem claim_C1_witness :
    (⟨"android-30", 0⟩ : DirEntry) ∈ [(⟨"android-30", 0⟩ : DirEntry)] :=
  (claim_C1_range_law ⟨21, 33, [("Q", 29)]⟩ [⟨"android-30", 0⟩] [⟨"android-30", 0⟩]
    (by decide) (by decide) (by decide) ⟨"android-30", 0⟩ (by decide) (by decide)
    30 (by decide)).mpr (by decide)

/-- C5: a glob entry whose token is a codename not present in the alias
table is removed by its processing step, and consequently no glob-matched
entry with an unknown codename token survives a successful run. -/
theorem claim_C5_unknown_codename_law (p : PlatformsMetadata) (dirs out : List DirEntry)
    (hn : (dirNames dirs).Nodup)
    (h : remove_and_rename_platforms_to_match_metadata dirs p = (out, none)) :
    (∀ (name : String) (s : List DirEntry),
      pyInt (engineVersionOf name) = none →
      aliasLookup p.aliases (engineVersionOf name) = none →
      remove_or_rename_platform_directory name s p =
        (s.filter (fun d => d.name != name), none)) ∧
    (∀ d ∈ out, listStarts "android-".data d.name.data = true →
      ¬(pyInt (engineVersionOf d.name) = none ∧
        aliasLookup p.aliases (engineVersionOf d.name) = none)) := by
  refine ⟨fun name s hpi hal => step_of_codename_unknown s p hpi hal, ?_⟩
  have hout := engine_ok_filterMap hn h
  subst hout
  rintro d hmem hg ⟨hpi, hal⟩
  obtain ⟨d0, hd0, hdisp⟩ := List.mem_filterMap.mp hmem
  by_cases hg0 : listStarts "android-".data d0.name.data = true
  · cases hpi0 : pyInt (engineVersionOf d0.name) with
    | some v =>
      rw [dispose_numeric hg0 hpi0] at hdisp
      by_cases hr : pyRangeHas p.minimum (p.maximum + 1) v = true
      · rw [if_pos hr] at hdisp
        injection hdisp with hdisp
        subst hdisp
        rw [hpi0] at hpi
        cases hpi
      · rw [if_neg hr] at hdisp
        cases hdisp
    | none =>
      cases hal0 : aliasLookup p.aliases (engineVersionOf d0.name) with
      | none =>
        rw [dispose_codename_unknown hg0 hpi0 hal0] at hdisp
        cases hdisp
      | some k =>
        rw [dispose_codename_known hg0 hpi0 hal0] at hdisp
        injection hdisp with hdisp
        subst hdisp
        have hname : ({ name := "android-" ++ intDecStr k, tag := d0.tag } : DirEntry).name =
            "android-" ++ intDecStr k := rfl
        rw [hname, engineVersionOf_android, pyInt_intDecStr] at hpi
        cases hpi
  · rw [dispose_nonglob (eq_false_of_ne_true hg0)] at hdisp
    injection hdisp with hdisp
    subst hdisp
    exact hg0 hg

/-- C5, witness: the removal step on `android-Weird` against an empty alias
table deletes exactly that entry. -/
theorem claim_C5_witness :
    remove_or_rename_platform_directory "android-Weird"
      [(⟨"android-Weird", 0⟩ : DirEntry)] ⟨21, 33, []⟩ = ([], none) := by
  have happ := (claim_C5_unknown_codename_law ⟨21, 33, []⟩ [⟨"android-Weird", 0⟩] []
    (by decide) (by decide)).1 "android-Weird" [⟨"android-Weird", 0⟩]
    (by decide) (by decide)
  exact happ

/-- C2: when a run fails with the alias-collision error for codename `c`
aliased to `k`, the codename directory is still present unchanged, a
directory with the target numeric name is still present, and the run
consists of the successfully processed front only — the failing step did
not mutate the tree and nothing after the failing entry was processed. -/
theorem claim_C2_collision_safety (p : PlatformsMetadata) (dirs out : List DirEntry)
    (c : String) (k : Int)
    (hn : (dirNames dirs).Nodup)
    (h : remove_and_rename_platforms_to_match_metadata dirs p =
      (out, some (RunError.aliasCollision c k))) :
    (∀ d ∈ dirs, d.name = "android-" ++ c → d ∈ out) ∧
    ("android-" ++ intDecStr k) ∈ dirNames out ∧
    ∃ l₁ l₂, globAndroid dirs = l₁ ++ ("android-" ++ c) :: l₂ ∧
      reconcileList l₁ dirs p = (out, none) ∧
      remove_or_rename_platform_directory ("android-" ++ c) out p =
        (out, some (RunError.aliasCollision c k)) := by
  unfold remove_and_rename_platforms_to_match_metadata at h
  obtain ⟨l₁, n, l₂, hsplit, hok, herr⟩ :=
    reconcile_error_split p (globAndroid dirs) dirs out (RunError.aliasCollision c k) h
  have hnin : n ∈ globAndroid dirs := by
    rw [hsplit]
    exact List.mem_append_right _ (List.mem_cons_self n l₂)
  obtain ⟨dn, hdn, hdnn, hgn⟩ := mem_globAndroid.mp hnin
  have hnl₁ : n ∉ l₁ := by
    have hnd := globAndroid_nodup hn
    rw [hsplit] at hnd
    obtain ⟨-, -, hdisj⟩ := List.nodup_append.mp hnd
    intro hx
    exact hdisj hx (List.mem_cons_self n l₂)
  have herr' := herr
  cases hpi : pyInt (engineVersionOf n) with
  | some v =>
    rw [step_of_numeric out p hpi] at herr'
    exact absurd (congrArg Prod.snd herr') (by simp)
  | none =>
    cases hal : aliasLookup p.aliases (engineVersionOf n) with
    | none =>
      rw [step_of_codename_unknown out p hpi hal] at herr'
      exact absurd (congrArg Prod.snd herr') (by simp)
    | some k' =>
      by_cases hmem : ("android-" ++ intDecStr k') ∈ dirNames out
      · rw [step_of_codename_collision out p hpi hal hmem] at herr'
        have h2 : (out, some (RunError.aliasCollision (engineVersionOf n) k')) =
            (out, some (RunError.aliasCollision c k)) := herr'
        injection h2 with h3 h4
        injection h4 with h4
        injection h4 with h5 h6
        subst h6
        have heq : n = "android-" ++ c := by
          rw [← h5]
          exact android_name_decompose hgn
        refine ⟨?_, hmem, l₁, l₂, by rw [← heq]; exact hsplit, hok, by rw [← heq]; exact herr⟩
        intro d hd hdname
        apply reconcile_mem_of_not_in p l₁ dirs out none d hok hd
        rw [hdname, ← heq]
        exact hnl₁
      · rw [step_of_codename_rename out p hpi hal hmem] at herr'
        exact absurd (congrArg Prod.snd herr') (by simp)

/-- C2, witness: `android-Q` aliased to 29 collides with a pre-existing
`android-29`; both survive the failed run. -/
theorem claim_C2_witness :
    (⟨"android-Q", 0⟩ : DirEntry) ∈
      [(⟨"android-Q", 0⟩ : DirEntry), ⟨"android-29", 1⟩] ∧
    ("android-" ++ intDecStr 29) ∈
      dirNames [(⟨"android-Q", 0⟩ : DirEntry), ⟨"android-29", 1⟩] := by
  have happ := claim_C2_collision_safety ⟨1, 50, [("Q", 29)]⟩
    [⟨"android-Q", 0⟩, ⟨"android-29", 1⟩] [⟨"android-Q", 0⟩, ⟨"android-29", 1⟩]
    "Q" 29 (by decide) (by decide)
  exact ⟨happ.1 ⟨"android-Q", 0⟩ (by decide) (by decide), happ.2.1⟩

theorem aliasLookup_mem {al : List (String × Int)} {c : String} {k : Int}
    (h : aliasLookup al c = some k) : ∃ pr ∈ al, pr.2 = k := by
  unfold aliasLookup at h
  cases hf : al.find? (fun pr => pr.1 == c) with
  | none =>
    rw [hf] at h
    cases h
  | some pr =>
    rw [hf] at h
    injection h with h
    exact ⟨pr, List.mem_of_find?_eq_some hf, h⟩

/-- C6, counterexample: the claim as stated fails because an alias may map
to a level outside `[minimum, maximum]` (explicitly allowed by the spec's
data-model invariant): the first run renames `android-Q` to `android-16`,
the second run deletes `android-16` as out of range. -/
theorem claim_C6_counterexample :
    remove_and_rename_platforms_to_match_metadata
      [⟨"android-Q", 0⟩] ⟨21, 33, [("Q", 16)]⟩ = ([⟨"android-16", 0⟩], none) ∧
    remove_and_rename_platforms_to_match_metadata
      [⟨"android-16", 0⟩] ⟨21, 33, [("Q", 16)]⟩ = ([], none) ∧
    ([] : List DirEntry) ≠ [⟨"android-16", 0⟩] := by
  decide

/-- C6, amended: reconciliation is idempotent provided every alias value
lies inside `[minimum, maximum]`: a second run over the successful output
performs no mutation and succeeds. -/
theorem claim_C6_amended_idempotence (p : PlatformsMetadata) (dirs out : List DirEntry)
    (hn : (dirNames dirs).Nodup)
    (hal : ∀ pr ∈ p.aliases, p.minimum ≤ pr.2 ∧ pr.2 ≤ p.maximum)
    (h : remove_and_rename_platforms_to_match_metadata dirs p = (out, none)) :
    remove_and_rename_platforms_to_match_metadata out p = (out, none) := by
  have hout := engine_ok_filterMap hn h
  have hgood : ∀ m ∈ globAndroid out, ∃ v, pyInt (engineVersionOf m) = some v ∧
      pyRangeHas p.minimum (p.maximum + 1) v = true := by
    intro m hm
    obtain ⟨d, hd, hdn, hq⟩ := mem_globAndroid.mp hm
    rw [hout] at hd
    obtain ⟨d0, hd0, hdisp⟩ := List.mem_filterMap.mp hd
    by_cases hg0 : listStarts "android-".data d0.name.data = true
    · cases hpi0 : pyInt (engineVersionOf d0.name) with
      | some v =>
        rw [dispose_numeric hg0 hpi0] at hdisp
        by_cases hr : pyRangeHas p.minimum (p.maximum + 1) v = true
        · rw [if_pos hr] at hdisp
          injection hdisp with hdisp
          subst hdisp
          refine ⟨v, ?_, hr⟩
          rw [← hdn]
          exact hpi0
        · rw [if_neg hr] at hdisp
          cases hdisp
      | none =>
        cases hal0 : aliasLookup p.aliases (engineVersionOf d0.name) with
        | none =>
          rw [dispose_codename_unknown hg0 hpi0 hal0] at hdisp
          cases hdisp
        | some k =>
          rw [dispose_codename_known hg0 hpi0 hal0] at hdisp
          injection hdisp with hdisp
          subst hdisp
          have hname : m = "android-" ++ intDecStr k := hdn.symm
          obtain ⟨pr, hpr, hpr2⟩ := aliasLookup_mem hal0
          obtain ⟨hlo, hhi⟩ := hal pr hpr
          refine ⟨k, ?_, ?_⟩
          · rw [hname, engineVersionOf_android, pyInt_intDecStr]
          · unfold pyRangeHas
            simp only [Bool.and_eq_true, decide_eq_true_eq]
            omega
    · rw [dispose_nonglob (eq_false_of_ne_true hg0)] at hdisp
      injection hdisp with hdisp
      subst hdisp
      rw [hdn] at hg0
      exact absurd hq hg0
  unfold remove_and_rename_platforms_to_match_metadata
  exact reconcile_keep p (globAndroid out) out hgood

/-- C6, witness: re-running on the reconciled output of the spec-style
example changes nothing. -/
theorem claim_C6_witness :
    remove_and_rename_platforms_to_match_metadata
      [⟨"android-29", 1⟩] ⟨21, 33, [("Q", 29)]⟩ = ([⟨"android-29", 1⟩], none) :=
  claim_C6_amended_idempotence ⟨21, 33, [("Q", 29)]⟩
    [⟨"android-16", 0⟩, ⟨"android-Q", 1⟩] [⟨"android-29", 1⟩]
    (by decide) (by decide) (by decide)

/-- C8, counterexample: the loader performs no shape validation — a `min`
field holding a string loads successfully instead of failing. -/
theorem claim_C8_counterexample :
    load_from_file (some (JValue.jobj
      [("min", JValue.jstr "21"), ("max", JValue.jnum 33),
       ("aliases", JValue.jobj [])])) =
      Except.ok ⟨JValue.jstr "21", JValue.jnum 33, JValue.jobj []⟩ ∧
    isIntShape (JValue.jstr "21") = false :=
  ⟨rfl, rfl⟩

/-- C8, amended: loading succeeds exactly when the source parses and the
three keys `min`, `max`, `aliases` are present on a JSON object, and then
each dataclass field holds exactly the stored JSON value (no defaulting, but
also no shape checks); otherwise it fails. -/
theorem claim_C8_amended_loader (src : Option JValue) (m : RawPlatformsMetadata) :
    load_from_file src = Except.ok m ↔
      ∃ j, src = some j ∧ jGet j "min" = Except.ok m.minimum ∧
        jGet j "max" = Except.ok m.maximum ∧ jGet j "aliases" = Except.ok m.aliases := by
  constructor
  · intro h
    cases src with
    | none =>
      rw [load_from_file] at h
      exact absurd h (by simp)
    | some j =>
      rw [load_from_file] at h
      cases hmn : jGet j "min" with
      | error e =>
        rw [hmn] at h
        exact absurd h (by simp)
      | ok mn =>
        rw [hmn] at h
        cases hmx : jGet j "max" with
        | error e =>
          rw [hmx] at h
          exact absurd h (by simp)
        | ok mx =>
          rw [hmx] at h
          cases hali : jGet j "aliases" with
          | error e =>
            rw [hali] at h
            exact absurd h (by simp)
          | ok al =>
            rw [hali] at h
            injection h with h
            subst h
            exact ⟨j, rfl, hmn, hmx, hali⟩
  · rintro ⟨j, rfl, h1, h2, h3⟩
    rw [load_from_file, h1, h2, h3]

/-- C8, witness: a well-formed metadata object loads verbatim. -/
theorem claim_C8_witness :
    load_from_file (some (JValue.jobj
      [("min", JValue.jnum 21), ("max", JValue.jnum 33),
       ("aliases", JValue.jobj [("Q", JValue.jnum 29)])])) =
      Except.ok ⟨JValue.jnum 21, JValue.jnum 33, JValue.jobj [("Q", JValue.jnum 29)]⟩ :=
  (claim_C8_amended_loader _ _).mpr ⟨_, rfl, rfl, rfl, rfl⟩

theorem string_data_append (a b : String) : (a ++ b).data = a.data ++ b.data := rfl

theorem android_append_inj {x y : String}
    (h : "android-" ++ x = "android-" ++ y) : x = y := by
  have hdata := congrArg String.data h
  rw [string_data_append, string_data_append] at hdata
  have hxy : x.data = y.data := List.append_cancel_left hdata
  obtain ⟨xd⟩ := x
  obtain ⟨yd⟩ := y
  simp only at hxy
  rw [hxy]

/-- C9, counterexample: the alias law as stated is unconditional in `c`, but
with `Q ↦ 29` in the alias table and no `android-Q` (or `android-29`) in the
input, a successful reconciliation produces no entry named `android-29`. -/
theorem claim_C9_counterexample :
    remove_and_rename_platforms_to_match_metadata [] ⟨21, 33, [("Q", 29)]⟩ = ([], none) ∧
    aliasLookup [("Q", 29)] "Q" = some 29 ∧
    ("android-" ++ intDecStr 29) ∉ dirNames ([] : List DirEntry) := by
  decide

/-- C9, amended: for a codename `c` aliased to `k`, if an entry named
`<android->c` exists in the input, then after a successful run exactly one
entry named `<android->k` exists and none named `<android->c` remains. -/
theorem claim_C9_amended_alias_law (p : PlatformsMetadata) (dirs out : List DirEntry)
    (c : String) (k : Int) (orig : DirEntry)
    (hn : (dirNames dirs).Nodup)
    (hc : pyInt c = none)
    (hk : aliasLookup p.aliases c = some k)
    (ho : orig ∈ dirs) (hon : orig.name = "android-" ++ c)
    (h : remove_and_rename_platforms_to_match_metadata dirs p = (out, none)) :
    (out.filter (fun d => d.name == "android-" ++ intDecStr k)).length = 1 ∧
    ∀ d ∈ out, d.name ≠ "android-" ++ c := by
  have hout := engine_ok_filterMap hn h
  have hgo : listStarts "android-".data orig.name.data = true := by
    rw [hon]
    exact listStarts_android c
  have hvo : pyInt (engineVersionOf orig.name) = none := by
    rw [hon, engineVersionOf_android]
    exact hc
  have halo : aliasLookup p.aliases (engineVersionOf orig.name) = some k := by
    rw [hon, engineVersionOf_android]
    exact hk
  have hdispo : dispose p orig =
      some { name := "android-" ++ intDecStr k, tag := orig.tag } :=
    dispose_codename_known hgo hvo halo
  have htmem : ("android-" ++ intDecStr k) ∈ dirNames out := by
    rw [hout]
    exact mem_dirNames.mpr ⟨_, List.mem_filterMap.mpr ⟨orig, ho, hdispo⟩, rfl⟩
  have hnout : (dirNames out).Nodup := by
    unfold remove_and_rename_platforms_to_match_metadata at h
    exact reconcile_names_nodup p (globAndroid dirs) dirs out none h hn
  constructor
  · have hlen : (out.filter (fun d => d.name == "android-" ++ intDecStr k)).length =
        (dirNames out).count ("android-" ++ intDecStr k) := by
      unfold dirNames
      rw [List.count, List.countP_map, List.countP_eq_length_filter]
      rfl
    rw [hlen]
    exact List.count_eq_one_of_mem hnout htmem
  · intro d hd hdname
    rw [hout] at hd
    obtain ⟨d0, hd0, hdisp⟩ := List.mem_filterMap.mp hd
    by_cases hg0 : listStarts "android-".data d0.name.data = true
    · cases hpi0 : pyInt (engineVersionOf d0.name) with
      | some v =>
        rw [dispose_numeric hg0 hpi0] at hdisp
        by_cases hr : pyRangeHas p.minimum (p.maximum + 1) v = true
        · rw [if_pos hr] at hdisp
          injection hdisp with hdisp
          subst hdisp
          rw [hdname, engineVersionOf_android] at hpi0
          rw [hc] at hpi0
          cases hpi0
        · rw [if_neg hr] at hdisp
          cases hdisp
      | none =>
        cases hal0 : aliasLookup p.aliases (engineVersionOf d0.name) with
        | none =>
          rw [dispose_codename_unknown hg0 hpi0 hal0] at hdisp
          cases hdisp
        | some k' =>
          rw [dispose_codename_known hg0 hpi0 hal0] at hdisp
          injection hdisp with hdisp
          have hdname' : ({ name := "android-" ++ intDecStr k', tag := d0.tag } : DirEntry).name =
              "android-" ++ c := by
            rw [hdisp]
            exact hdname
          have hck : c = intDecStr k' := (android_append_inj hdname').symm
          rw [hck, pyInt_intDecStr] at hc
          cases hc
    · rw [dispose_nonglob (eq_false_of_ne_true hg0)] at hdisp
      injection hdisp with hdisp
      subst hdisp
      rw [hdname] at hg0
      exact hg0 (listStarts_android c)

/-- C9, witness: `android-Q` (aliased to 29) graduates to exactly one
`android-29` and no `android-Q` remains. -/
theorem claim_C9_witness :
    ([(⟨"android-29", 7⟩ : DirEntry)].filter
      (fun d => d.name == "android-" ++ intDecStr 29)).length = 1 ∧
    ∀ d ∈ [(⟨"android-29", 7⟩ : DirEntry)], d.name ≠ "android-" ++ "Q" :=
  claim_C9_amended_alias_law ⟨21, 33, [("Q", 29)]⟩ [⟨"android-Q", 7⟩]
    [⟨"android-29", 7⟩] "Q" 29 ⟨"android-Q", 7⟩
    (by decide) (by decide) (by decide) (by decide) (by decide) (by decide)

theorem dirNames_filter_ne (n : String) (s : List DirEntry) :
    dirNames (s.filter (fun d => d.name != n)) =
      (dirNames s).filter (fun x => x != n) := by
  unfold dirNames
  rw [List.filter_map]
  rfl

theorem globAndroid_eq_names (s : List DirEntry) :
    globAndroid s = (dirNames s).filter (fun x => listStarts "android-".data x.data) := by
  unfold globAndroid dirNames
  rw [List.filter_map]
  rfl

theorem dirNames_map_rename (n t : String) (s : List DirEntry) :
    dirNames (s.map (fun d => if d.name = n then { name := t, tag := d.tag } else d)) =
      (dirNames s).map (fun x => if x = n then t else x) := by
  unfold dirNames
  rw [List.map_map, List.map_map]
  apply List.map_congr_left
  intro d _
  by_cases hd : d.name = n
  · simp [Function.comp, hd]
  · simp [Function.comp, hd]

/-- A step's effect on the tree's names, and whether it fails, depend only
on the tree's names (not on tags/contents). -/
theorem step_name_determined (n : String) (p : PlatformsMetadata)
    (s₁ s₂ : List DirEntry) (hnames : dirNames s₁ = dirNames s₂) :
    dirNames (remove_or_rename_platform_directory n s₁ p).1 =
      dirNames (remove_or_rename_platform_directory n s₂ p).1 ∧
    (remove_or_rename_platform_directory n s₁ p).2 =
      (remove_or_rename_platform_directory n s₂ p).2 := by
  cases hpi : pyInt (engineVersionOf n) with
  | some v =>
    rw [step_of_numeric s₁ p hpi, step_of_numeric s₂ p hpi]
    unfold remove_platform_if_out_of_range
    by_cases hr : pyRangeHas p.minimum (p.maximum + 1) v = true
    · rw [if_pos hr, if_pos hr]
      exact ⟨hnames, rfl⟩
    · rw [if_neg hr, if_neg hr]
      refine ⟨?_, rfl⟩
      show dirNames (s₁.filter (fun d => d.name != n)) =
        dirNames (s₂.filter (fun d => d.name != n))
      rw [dirNames_filter_ne n s₁, dirNames_filter_ne n s₂, hnames]
  | none =>
    cases hal : aliasLookup p.aliases (engineVersionOf n) with
    | none =>
      rw [step_of_codename_unknown s₁ p hpi hal, step_of_codename_unknown s₂ p hpi hal]
      refine ⟨?_, rfl⟩
      show dirNames (s₁.filter (fun d => d.name != n)) =
        dirNames (s₂.filter (fun d => d.name != n))
      rw [dirNames_filter_ne n s₁, dirNames_filter_ne n s₂, hnames]
    | some k =>
      by_cases hmem : ("android-" ++ intDecStr k) ∈ dirNames s₁
      · have hmem₂ : ("android-" ++ intDecStr k) ∈ dirNames s₂ := hnames ▸ hmem
        rw [step_of_codename_collision s₁ p hpi hal hmem,
          step_of_codename_collision s₂ p hpi hal hmem₂]
        exact ⟨hnames, rfl⟩
      · have hmem₂ : ("android-" ++ intDecStr k) ∉ dirNames s₂ := by
          rw [← hnames]
          exact hmem
        rw [step_of_codename_rename s₁ p hpi hal hmem,
          step_of_codename_rename s₂ p hpi hal hmem₂]
        refine ⟨?_, rfl⟩
        show dirNames (s₁.map (fun d => if d.name = n then
            { name := "android-" ++ intDecStr k, tag := d.tag } else d)) =
          dirNames (s₂.map (fun d => if d.name = n then
            { name := "android-" ++ intDecStr k, tag := d.tag } else d))
        rw [dirNames_map_rename, dirNames_map_rename, hnames]

/-- The whole loop is determined by the name sequence. -/
theorem reconcile_name_determined (p : PlatformsMetadata) :
    ∀ (l : List String) (s₁ s₂ : List DirEntry), dirNames s₁ = dirNames s₂ →
      dirNames (reconcileList l s₁ p).1 = dirNames (reconcileList l s₂ p).1 ∧
      (reconcileList l s₁ p).2 = (reconcileList l s₂ p).2 := by
  intro l
  induction l with
  | nil =>
    intro s₁ s₂ h
    exact ⟨h, rfl⟩
  | cons n rest ih =>
    intro s₁ s₂ h
    obtain ⟨hna, herr⟩ := step_name_determined n p s₁ s₂ h
    rcases h1 : remove_or_rename_platform_directory n s₁ p with ⟨t₁, e₁⟩
    rcases h2 : remove_or_rename_platform_directory n s₂ p with ⟨t₂, e₂⟩
    rw [h1, h2] at hna herr
    simp only at hna herr
    subst herr
    cases e₁ with
    | none =>
      constructor
      · rw [reconcileList, h1, reconcileList, h2]
        exact (ih t₁ t₂ hna).1
      · rw [reconcileList, h1, reconcileList, h2]
        exact (ih t₁ t₂ hna).2
    | some e =>
      constructor
      · rw [reconcileList, h1, reconcileList, h2]
        exact hna
      · rw [reconcileList, h1, reconcileList, h2]

/-- C7, counterexample: the engine does not impose a fixed processing order
— it follows the filesystem enumeration — and the same directory set
enumerated in the two possible orders yields different results (a success
with `android-29` renamed into place versus an alias-collision failure). -/
theorem claim_C7_counterexample :
    remove_and_rename_platforms_to_match_metadata
      [⟨"android-29", 0⟩, ⟨"android-Q", 1⟩] ⟨30, 33, [("Q", 29)]⟩ =
      ([⟨"android-29", 1⟩], none) ∧
    remove_and_rename_platforms_to_match_metadata
      [⟨"android-Q", 1⟩, ⟨"android-29", 0⟩] ⟨30, 33, [("Q", 29)]⟩ =
      ([⟨"android-Q", 1⟩, ⟨"android-29", 0⟩], some (RunError.aliasCollision "Q" 29)) ∧
    [(⟨"android-Q", 1⟩ : DirEntry), ⟨"android-29", 0⟩] =
      [(⟨"android-29", 0⟩ : DirEntry), ⟨"android-Q", 1⟩].reverse := by
  decide

/-- C7, amended: the run is a pure function of the enumerated name sequence
and the metadata — two trees presenting the same names in the same order
produce name-identical results and the same error, independent of
tags/contents.  (A fixed order across hosts is not established by the code;
the counterexample shows order changes the outcome.) -/
theorem claim_C7_amended_sequence_determinism (dirs₁ dirs₂ : List DirEntry)
    (p : PlatformsMetadata) (hnames : dirNames dirs₁ = dirNames dirs₂) :
    dirNames (remove_and_rename_platforms_to_match_metadata dirs₁ p).1 =
      dirNames (remove_and_rename_platforms_to_match_metadata dirs₂ p).1 ∧
    (remove_and_rename_platforms_to_match_metadata dirs₁ p).2 =
      (remove_and_rename_platforms_to_match_metadata dirs₂ p).2 := by
  have hglob : globAndroid dirs₁ = globAndroid dirs₂ := by
    rw [globAndroid_eq_names, globAndroid_eq_names, hnames]
  unfold remove_and_rename_platforms_to_match_metadata
  rw [hglob]
  exact reconcile_name_determined p (globAndroid dirs₂) dirs₁ dirs₂ hnames

/-- C7, witness: two trees with the same names but different identities
reconcile to the same names. -/
theorem claim_C7_witness :
    dirNames (remove_and_rename_platforms_to_match_metadata
      [⟨"android-21", 5⟩] ⟨21, 33, []⟩).1 =
      dirNames (remove_and_rename_platforms_to_match_metadata
        [⟨"android-21", 9⟩] ⟨21, 33, []⟩).1 :=
  (claim_C7_amended_sequence_determinism [⟨"android-21", 5⟩] [⟨"android-21", 9⟩]
    ⟨21, 33, []⟩ (by decide)).1

end UpdatePlatform
